import Mathlib

/-!
Verification of the core parsing and state-machine logic of yalv-rust
(src/main.rs), a terminal dashboard for libvirt virtual machines.

The Rust code is shallowly embedded:

* Rust string operations are modelled by structural Lean functions over
  `String.data` (`trimStr`, `splitWhitespace`, `rustLines`, ...), each
  documented with the Rust operation it models, so that every definition
  is kernel-computable.
* External process invocations (virsh list / domifaddr / dumpxml,
  lifecycle commands, console, ssh) are modelled by explicit environment
  parameters carrying the observable result of the invocation: `Option`
  for commands whose failure is tolerated, `Except` where failure aborts
  the program (process exit 1). For the event loop, the environment is an
  `Env` of pure functions: `info` models `get_vm_info` (IPs + dumpxml
  summary text), `list` models `get_vm_list` for a given show-all flag,
  and `ip` models `get_vm_ip`; `get_vm_list` itself aborts the program
  when the list command fails, modelled as `Except.error ()`.
* The streaming XML tokenizer (crate xmlparser) is external; the XML
  walkers are modelled over the already-tokenized stream `List XmlToken`.
  The `Open`/`Empty`/`Close` element-end variants of the crate are kept
  apart because the source matches on them (Empty and Close are handled
  identically: pop and flush; Open leaves the stack alone). Tokenizer
  errors abort the walk through `?`; the claims quantify over well-formed
  token streams, so they are not modelled. The Rust element stack is a
  `Vec` with `push`/`last`/`pop` at the end; it is represented head-first
  (`push` = cons, `last` = head).
* f64 arithmetic in `convert_memory_to_mib` is modelled by exact fraction
  arithmetic (`Frac`). Every factor the code uses (1024, 1024*1024) is a
  power of two, so the f64 divisions and multiplication are exact for
  every in-range input, and the values reaching the formatting step are
  dyadic rationals. Rust float formatting with a fixed precision rounds
  the exact binary value to nearest with ties to even;
  `fracRoundHalfEven` models that exactly. The literal 0.01 in the
  source is the nearest f64 to 1/100; no dyadic fraction with the
  denominators arising here (2^10, 2^20) falls between 1/100 and that
  f64, so comparing against 1/100 exactly is faithful. The numeric value
  string is read exactly (`parseUIntStr`), which coincides with the
  program's f64 parse only for values below 2^53 — beyond that f64
  rounds to 53-bit precision — so the C3 claim is stated under the
  bound v < 2^53.
* The event loop `run` (src/main.rs lines 615-767) is modelled as a step
  function on the App state consuming one operation per iteration: a key
  press or the 3-second poll timeout (`Op.tick`). Lifecycle commands,
  console and ssh subprocesses change no App state. `stepCount`
  additionally reports how many times the operation recomputed the
  detail cache (i.e. called `get_vm_info` inside `update_info_cache`).
-/

namespace Yalv

/-- Models Rust char::is_whitespace for the ASCII whitespace relevant here. -/
def isWS (c : Char) : Bool := c.isWhitespace

/-- Models Rust str::trim: remove leading and trailing whitespace. -/
def trimStr (s : String) : String :=
  ⟨(((s.data.dropWhile isWS).reverse).dropWhile isWS).reverse⟩

/-- Helper for `splitWhitespace`: walk the characters, accumulating the
current word reversed. -/
def splitWSAux : List Char → List Char → List String
  | [], acc => if acc.isEmpty then [] else [⟨acc.reverse⟩]
  | c :: rest, acc =>
    if isWS c then
      if acc.isEmpty then splitWSAux rest [] else (⟨acc.reverse⟩ : String) :: splitWSAux rest []
    else splitWSAux rest (c :: acc)

/-- Models Rust str::split_whitespace: split on whitespace runs, yielding
no empty tokens. -/
def splitWhitespace (s : String) : List String := splitWSAux s.data []

/-- Split a character list at every occurrence of `sep` (Rust str::split
semantics: `n` separators yield `n+1` pieces, possibly empty). -/
def splitCharSep (sep : Char) : List Char → List (List Char)
  | [] => [[]]
  | c :: rest =>
    if c = sep then [] :: splitCharSep sep rest
    else
      match splitCharSep sep rest with
      | g :: gs => (c :: g) :: gs
      | [] => [[c]]

/-- Strip one trailing carriage return, as Rust str::lines does per line. -/
def stripCR (cs : List Char) : List Char :=
  match cs.getLast? with
  | some c => if c = '\r' then cs.dropLast else cs
  | none => cs

/-- Models Rust str::lines: split on newline with terminator semantics (a
final newline does not produce a trailing empty line) and strip one
trailing carriage return from each line. -/
def rustLines (s : String) : List String :=
  let pieces := splitCharSep '\n' s.data
  let pieces := if pieces.getLast? = some [] then pieces.dropLast else pieces
  pieces.map fun cs => (⟨stripCR cs⟩ : String)

/-- Models `parts[3].split('/').next().unwrap()`: everything before the
first slash (the whole string when no slash occurs). -/
def beforeSlash (s : String) : String := ⟨s.data.takeWhile (fun c => c ≠ '/')⟩

/-- Models Rust slice join / itertools join with a separator. -/
def joinWith (sep : String) : List String → String
  | [] => ""
  | [x] => x
  | x :: xs => x ++ sep ++ joinWith sep xs

/-- Models `trimmed.chars().all(|c| c == '-')`. -/
def allDash (s : String) : Bool := s.data.all (fun c => c == '-')

/-- The VM record of src/main.rs (struct Vm, lines 16-22). -/
structure Vm where
  id : String
  name : String
  vcpus : String
  memory : String
  state : String
  deriving DecidableEq, Repr

/-- Loop body of `parse_virsh_output` (src/main.rs lines 342-357): trim the
line, skip it when empty or made of separator dashes only, split into
whitespace tokens and keep rows of at least 3 tokens. -/
def virshStep (vms : List Vm) (line : String) : List Vm :=
  let trimmed := trimStr line
  if trimmed.isEmpty || allDash trimmed then vms
  else
    let parts := splitWhitespace trimmed
    if 3 ≤ parts.length then
      vms ++ [⟨parts.getD 0 "", parts.getD 1 "", "N/A", "N/A", joinWith " " (parts.drop 2)⟩]
    else vms

/-- `parse_virsh_output` (src/main.rs lines 340-359): skip the first two
lines unconditionally, then run `virshStep` over the remaining lines. -/
def parse_virsh_output (out : String) : List Vm :=
  ((rustLines out).drop 2).foldl virshStep []

/-- Spec-side row admission rule, following the words of the spec (section
4.1): trim; drop empty lines and lines consisting entirely of the
separator character; a valid row has at least 3 whitespace tokens, with
token 0 the id, token 1 the name, the remaining tokens joined with single
spaces the state, and vcpus/memory defaulted to N/A. -/
def rowToVm (line : String) : Option Vm :=
  let trimmed := trimStr line
  if trimmed.isEmpty || allDash trimmed then none
  else
    let parts := splitWhitespace trimmed
    if 3 ≤ parts.length then
      some ⟨parts.getD 0 "", parts.getD 1 "", "N/A", "N/A", joinWith " " (parts.drop 2)⟩
    else none

/-- `if !ips.iter().any(|v| v == &ip) { ips.push(ip) }` — append an address
only when it is not already present. -/
def pushNew (acc : List String) (x : String) : List String :=
  if x ∈ acc then acc else acc ++ [x]

/-- Insert every element of `xs` in order into `acc`, skipping elements
already present (first-occurrence union). -/
def insertAll (acc xs : List String) : List String := xs.foldl pushNew acc

/-- Row rule of `parse_domifaddr_output` (src/main.rs lines 173-182): at
least 4 whitespace tokens, token 2 equal to "ipv4"; the address is token 3
with everything from the first slash on stripped. -/
def domifaddrRow (line : String) : Option String :=
  let parts := splitWhitespace line
  if 4 ≤ parts.length ∧ parts.getD 2 "" = "ipv4" then some (beforeSlash (parts.getD 3 ""))
  else none

/-- Loop body of `parse_domifaddr_output`: push a parsed address if new. -/
def domifaddrStep (ips : List String) (line : String) : List String :=
  match domifaddrRow line with
  | some ip => pushNew ips ip
  | none => ips

/-- `parse_domifaddr_output` (src/main.rs lines 171-185): skip the first
two lines, then extract and deduplicate ipv4 addresses. -/
def parse_domifaddr_output (out : String) : List String :=
  ((rustLines out).drop 2).foldl domifaddrStep []

/-- Spec-side per-source extraction, following the words of the spec
(section 4.2), without deduplication: skip two header lines and collect
the address of every qualifying row. -/
def domifaddrAddrs (out : String) : List String :=
  ((rustLines out).drop 2).filterMap domifaddrRow

/-- The fixed source priority order of `get_vm_ips` (src/main.rs line 197). -/
def ipSources : List String := ["lease", "arp", "agent"]

/-- Loop body of `get_vm_ips` (src/main.rs lines 199-222): a source whose
command fails (`env source = none`) is skipped; a successful one has its
parsed addresses appended when not already present. -/
def sourceStep (env : String → Option String) (ips : List String) (source : String) :
    List String :=
  match env source with
  | none => ips
  | some out => (parse_domifaddr_output out).foldl pushNew ips

/-- `get_vm_ips` (src/main.rs lines 195-227): try all three sources in
order, accumulating a deduplicated address list; `env` maps a source name
to the stdout of the domifaddr command, or `none` when the command could
not be invoked or exited non-zero. -/
def get_vm_ips (env : String → Option String) : List String :=
  ipSources.foldl (sourceStep env) []

/-- An exact (unreduced) fraction with positive denominator, modelling the
f64 intermediate values of the memory conversion. -/
structure Frac where
  num : Int
  den : Int
  deriving DecidableEq, Repr

/-- Floor of a fraction (denominator positive): Euclidean division. -/
def Frac.fl (x : Frac) : Int := x.num.ediv x.den

/-- Numerator of the fractional part `x - floor x`, in `[0, den)`. Models
f64 `fract()` (= self - trunc), which agrees with floor on the nonnegative
values arising here. -/
def Frac.fractNum (x : Frac) : Int := x.num - x.fl * x.den

/-- Does the (nonnegative) fractional part have absolute value below 1/100?
Models `(mib.fract()).abs() < 0.01`. -/
def Frac.fractBelowCenti (x : Frac) : Bool := 100 * x.fractNum < x.den

/-- Round a fraction to the nearest integer, ties to even — the rounding
Rust float formatting applies. -/
def fracRoundHalfEven (x : Frac) : Int :=
  let f := x.fl
  let r2 := 2 * x.fractNum
  if r2 < x.den then f
  else if x.den < r2 then f + 1
  else if f % 2 = 0 then f else f + 1

/-- Models `format!("{mib:.0}")` for the nonnegative dyadic values reaching
it (only under `fractBelowCenti`, where rounding to nearest is the floor). -/
def fmtPrec0 (x : Frac) : String := toString x.fl

/-- Models `format!("{mib:.1}")`: round `10 * x` half-to-even and print one
decimal digit. -/
def fmtPrec1 (x : Frac) : String :=
  let r := fracRoundHalfEven ⟨x.num * 10, x.den⟩
  toString (r.ediv 10) ++ "." ++ toString (r.emod 10)

/-- Models Rust `value.parse::<f64>()` restricted to the unsigned decimal
integer strings libvirt emits, read exactly; other strings are rejected,
which like a parse failure yields `none`. The f64 parse of the program is
exact precisely for values below 2^53 — beyond that it rounds to 53-bit
precision and diverges from this exact reading — so `claim_C3` is stated
under that bound. -/
def parseUIntStr (s : String) : Option Nat :=
  if s.isEmpty || !s.data.all Char.isDigit then none
  else some (s.data.foldl (fun n c => n * 10 + (c.toNat - 48)) 0)

/-- Models Rust `to_ascii_lowercase`. -/
def asciiLower (s : String) : String :=
  ⟨s.data.map fun c => if 'A' ≤ c ∧ c ≤ 'Z' then Char.ofNat (c.toNat + 32) else c⟩

/-- `convert_memory_to_mib` (src/main.rs lines 322-338): parse the numeric
value, normalize the unit (default "KiB") to lowercase, convert to MiB
(KiB divides by 1024, MiB is unchanged, GiB multiplies by 1024, and
b/byte/bytes divide by 1024*1024; anything else yields `none`), and format
with zero decimal places when the absolute fractional part is below 0.01
and one decimal place otherwise, suffixed with " MiB". Via `parseUIntStr`
this reads the numeric value exactly, which coincides with the program's
f64 parse only for values below 2^53; `claim_C3` carries that bound. -/
def convert_memory_to_mib (value : String) (unit : Option String) : Option String :=
  match parseUIntStr value with
  | none => none
  | some n =>
    let u := asciiLower (unit.getD "KiB")
    let mib : Option Frac :=
      if u = "kib" then some ⟨n, 1024⟩
      else if u = "mib" then some ⟨n, 1⟩
      else if u = "gib" then some ⟨(n : Int) * 1024, 1⟩
      else if u = "b" ∨ u = "byte" ∨ u = "bytes" then some ⟨n, 1024 * 1024⟩
      else none
    match mib with
    | none => none
    | some x =>
      let formatted := if x.fractBelowCenti then fmtPrec0 x else fmtPrec1 x
      some (formatted ++ " MiB")

/-- Spec-side formatting rule, in the words of the spec: zero decimal
places when the fractional part is below 0.01 in absolute value, one
decimal place otherwise, suffixed with " MiB". -/
def fmtMiB (x : Frac) : String :=
  (if x.fractBelowCenti then fmtPrec0 x else fmtPrec1 x) ++ " MiB"

/-- Tokens of the streaming XML tokenizer, as consumed by the source. -/
inductive XmlToken where
  | elementStart (name : String)
  | attr (name value : String)
  | text (t : String)
  | elementEndOpen
  | elementEndEmpty
  | elementEndClose
  | other
  deriving DecidableEq, Repr

/-- Walker state of `parse_dumpxml_resources` (src/main.rs lines 274-277). -/
structure ResState where
  stack : List String
  vcpu : Option String
  memory : Option String
  memoryUnit : Option String
  deriving DecidableEq, Repr

/-- One token step of `parse_dumpxml_resources` (src/main.rs lines 279-314):
push element names; record a `unit` attribute whenever the enclosing
element is `memory` (overwriting any earlier one); record the first
non-empty trimmed text directly inside `vcpu`, else the first directly
inside `memory`; pop on Empty/Close element ends. -/
def resStep (s : ResState) : XmlToken → ResState
  | .elementStart n => { s with stack := n :: s.stack }
  | .attr l v =>
    if s.stack.head? = some "memory" ∧ l = "unit" then { s with memoryUnit := some v } else s
  | .text t =>
    let value := trimStr t
    if ¬value.isEmpty ∧ s.vcpu = none ∧ s.stack.head? = some "vcpu" then
      { s with vcpu := some value }
    else if ¬value.isEmpty ∧ s.memory = none ∧ s.stack.head? = some "memory" then
      { s with memory := some value }
    else s
  | .elementEndOpen => s
  | .elementEndEmpty => { s with stack := s.stack.tail }
  | .elementEndClose => { s with stack := s.stack.tail }
  | .other => s

/-- `parse_dumpxml_resources` (src/main.rs lines 271-320): walk the tokens
and return the vcpu text and the converted memory value. -/
def parse_dumpxml_resources (toks : List XmlToken) : Option String × Option String :=
  let f := toks.foldl resStep ⟨[], none, none, none⟩
  (f.vcpu, f.memory.bind fun v => convert_memory_to_mib v f.memoryUnit)

/-- Left-biased choice on options. -/
def oalt : Option String → Option String → Option String
  | some x, _ => some x
  | none, y => y

/-- Spec-side extractor: the first non-empty trimmed text content directly
inside an element named `tag`, starting from the given open-element stack. -/
def firstTextIn (tag : String) (stack : List String) : List XmlToken → Option String
  | [] => none
  | .elementStart n :: rest => firstTextIn tag (n :: stack) rest
  | .attr _ _ :: rest => firstTextIn tag stack rest
  | .text t :: rest =>
    let value := trimStr t
    if ¬value.isEmpty ∧ stack.head? = some tag then some value
    else firstTextIn tag stack rest
  | .elementEndOpen :: rest => firstTextIn tag stack rest
  | .elementEndEmpty :: rest => firstTextIn tag stack.tail rest
  | .elementEndClose :: rest => firstTextIn tag stack.tail rest
  | .other :: rest => firstTextIn tag stack rest

/-- Spec-side extractor: the value of the last `unit` attribute appearing
directly on any `memory` element of the stream (later occurrences win). -/
def lastUnitIn (stack : List String) : List XmlToken → Option String
  | [] => none
  | .elementStart n :: rest => lastUnitIn (n :: stack) rest
  | .attr l v :: rest =>
    oalt (lastUnitIn stack rest)
      (if stack.head? = some "memory" ∧ l = "unit" then some v else none)
  | .text _ :: rest => lastUnitIn stack rest
  | .elementEndOpen :: rest => lastUnitIn stack rest
  | .elementEndEmpty :: rest => lastUnitIn stack.tail rest
  | .elementEndClose :: rest => lastUnitIn stack.tail rest
  | .other :: rest => lastUnitIn stack rest

/-- Token stream of `<memory>1024</memory><memory unit="GiB"/>`: the text
comes from the first memory element, which has no unit attribute. -/
def c4Toks : List XmlToken :=
  [.elementStart "memory", .elementEndOpen, .text "1024", .elementEndClose,
   .elementStart "memory", .attr "unit" "GiB", .elementEndEmpty]

/-- In-progress disk accumulator of `summarize_dumpxml` (src/main.rs
lines 446-451). -/
structure DiskInfo where
  is_disk : Bool
  target : Option String
  source : Option String
  deriving DecidableEq, Repr

/-- In-progress interface accumulator (src/main.rs lines 452-455). -/
structure IfaceInfo where
  fields : List String
  deriving DecidableEq, Repr

/-- Walker state of `summarize_dumpxml` (src/main.rs lines 457-463). -/
structure SumState where
  stack : List String
  emulator : Option String
  networks : List String
  interfaces : List String
  disks : List String
  currentDisk : Option DiskInfo
  currentIface : Option IfaceInfo
  deriving DecidableEq, Repr

/-- The source-attribute names recognized on a disk `source` element, in
the order of the `matches!` alternatives of the source (src/main.rs
lines 484-488). -/
def srcAttrNames : List String := ["file", "dev", "name", "volume", "path"]

/-- Disk part of the attribute handler (src/main.rs lines 479-493): while a
disk accumulator is open, `device="disk"` on the `disk` element marks it
as a real disk, `dev` on a `target` element sets the target (last one
wins), and the first attribute named file/dev/name/volume/path on a
`source` element sets the source. -/
def diskAttrStep (elem l v : String) (s : SumState) : SumState :=
  match s.currentDisk with
  | none => s
  | some disk =>
    if elem = "disk" ∧ l = "device" ∧ v = "disk" then
      { s with currentDisk := some { disk with is_disk := true } }
    else if elem = "target" ∧ l = "dev" then
      { s with currentDisk := some { disk with target := some v } }
    else if elem = "source" ∧ srcAttrNames.contains l ∧ disk.source = none then
      { s with currentDisk := some { disk with source := some v } }
    else s

/-- Network part of the attribute handler (src/main.rs lines 512-520): a
`network`, `bridge` or `dev` attribute on a `source` element whose parent
is an `interface` element appends a new network name. -/
def networksStep (elem l v : String) (s : SumState) : SumState :=
  if elem = "source" ∧ s.stack.get? 1 = some "interface"
      ∧ (["network", "bridge", "dev"] : List String).contains l then
    (if s.networks.contains v then s else { s with networks := s.networks ++ [v] })
  else s

/-- Attribute handler of `summarize_dumpxml` (src/main.rs lines 477-521):
run the disk part, then — while an interface accumulator is open — either
skip the noise attributes of `address` elements entirely (the `continue`
in the source, which also skips the network check) or record a
"field=value" descriptor, then run the network part. -/
def attrStep (l v : String) (s : SumState) : SumState :=
  match s.stack.head? with
  | none => s
  | some elem =>
    let s := diskAttrStep elem l v s
    match s.currentIface with
    | some iface =>
      if elem = "address"
          ∧ (["type", "domain", "bus", "slot", "function"] : List String).contains l then s
      else
        let field := if elem = "interface" then l ++ "=" ++ v else elem ++ "." ++ l ++ "=" ++ v
        let s :=
          if iface.fields.contains field then s
          else { s with currentIface := some { iface with fields := iface.fields ++ [field] } }
        networksStep elem l v s
    | none => networksStep elem l v s

/-- Text handler (src/main.rs lines 523-541): the first non-empty trimmed
text directly inside an `emulator` element is the emulator; while an
interface accumulator is open, any non-empty text becomes an
"element=text" descriptor. -/
def textStep (t : String) (s : SumState) : SumState :=
  let value := trimStr t
  if value.isEmpty then s
  else
    let s :=
      match s.stack.head? with
      | some elem =>
        if elem = "emulator" ∧ s.emulator = none then { s with emulator := some value } else s
      | none => s
    match s.currentIface, s.stack.head? with
    | some iface, some elem =>
      let field := elem ++ "=" ++ value
      if iface.fields.contains field then s
      else { s with currentIface := some { iface with fields := iface.fields ++ [field] } }
    | _, _ => s

/-- Element-end handler (src/main.rs lines 542-585, identical for
self-closing and closing tags): pop the stack; a closed `interface`
flushes its joined field list (or "N/A"), a closed `disk` flushes
"target: source" when it qualified as a disk. -/
def closeStep (s : SumState) : SumState :=
  match s.stack with
  | [] => s
  | closed :: rest =>
    let s := { s with stack := rest }
    if closed = "interface" then
      match s.currentIface with
      | some iface =>
        { s with currentIface := none,
                 interfaces := s.interfaces ++
                   [if iface.fields.isEmpty then "N/A" else joinWith ", " iface.fields] }
      | none => s
    else if closed = "disk" then
      match s.currentDisk with
      | some disk =>
        { s with currentDisk := none,
                 disks :=
                   if disk.is_disk then
                     s.disks ++
                       [disk.target.getD "unknown" ++ ": " ++ disk.source.getD "unknown"]
                   else s.disks }
      | none => s
    else s

/-- One token step of `summarize_dumpxml` (src/main.rs lines 465-589). -/
def sumStep (s : SumState) : XmlToken → SumState
  | .elementStart n =>
    let s :=
      if n = "disk" then { s with currentDisk := some ⟨false, none, none⟩ }
      else if n = "interface" then { s with currentIface := some ⟨[]⟩ }
      else s
    { s with stack := n :: s.stack }
  | .attr l v => attrStep l v s
  | .text t => textStep t s
  | .elementEndOpen => s
  | .elementEndEmpty => closeStep s
  | .elementEndClose => closeStep s
  | .other => s

/-- Initial walker state of `summarize_dumpxml`. -/
def sumInit : SumState := ⟨[], none, [], [], [], none, none⟩

/-- Final walker state of `summarize_dumpxml` over a token stream. -/
def runSummarize (toks : List XmlToken) : SumState := toks.foldl sumStep sumInit

/-- Join a list with ", " or fall back to "N/A" (src/main.rs lines 591-606). -/
def joinOrNA (l : List String) : String :=
  if l.isEmpty then "N/A" else joinWith ", " l

/-- `summarize_dumpxml` (src/main.rs lines 445-611): the four labeled
summary lines. -/
def summarize_dumpxml (toks : List XmlToken) : String :=
  let f := runSummarize toks
  "Network: " ++ joinOrNA f.networks ++ "\nInterfaces: " ++ joinOrNA f.interfaces ++
    "\nEmulator: " ++ f.emulator.getD "N/A" ++ "\nDisks: " ++ joinOrNA f.disks

/-- The disk entries of the domain summary. -/
def dumpxmlDisks (toks : List XmlToken) : List String := (runSummarize toks).disks

/-- Token stream of a disk element
`<disk [device=d]><target [dev=t]/><source a1=v1 .. an=vn/></disk>`
with optional device attribute, optional target dev attribute and an
arbitrary attribute list on its source child. -/
def mkDiskTokens (device targetDev : Option String) (srcAttrs : List (String × String)) :
    List XmlToken :=
  [XmlToken.elementStart "disk"] ++
    (match device with | some d => [XmlToken.attr "device" d] | none => []) ++
    [XmlToken.elementEndOpen, XmlToken.elementStart "target"] ++
    (match targetDev with | some t => [XmlToken.attr "dev" t] | none => []) ++
    [XmlToken.elementEndEmpty, XmlToken.elementStart "source"] ++
    srcAttrs.map (fun p => XmlToken.attr p.1 p.2) ++
    [XmlToken.elementEndEmpty, XmlToken.elementEndClose]

/-- Token stream of
`<disk device="disk"><target dev="vda"/><source volume="v" file="f"/></disk>`:
the source child carries a `volume` attribute before a `file` attribute. -/
def c5Toks : List XmlToken :=
  [.elementStart "disk", .attr "device" "disk", .elementEndOpen,
   .elementStart "target", .attr "dev" "vda", .elementEndEmpty,
   .elementStart "source", .attr "volume" "v", .attr "file" "f",
   .elementEndEmpty, .elementEndClose]

/-- `get_vm_resources` (src/main.rs lines 257-269): `dump` is the token
stream of a successful `virsh dumpxml`, or `none` when the command could
not be run, exited non-zero, or its output failed to tokenize. Missing
vcpu/memory values fall back to "N/A". -/
def get_vm_resources (dump : Option (List XmlToken)) : Option (String × String) :=
  dump.map fun toks =>
    let r := parse_dumpxml_resources toks
    (r.1.getD "N/A", r.2.getD "N/A")

/-- Enrichment of one parsed record (src/main.rs lines 146-151): overwrite
vcpus/memory when resources were obtained, keep the parse defaults
otherwise. `res` maps a VM name to the outcome of its resource lookup. -/
def enrichVm (res : String → Option (String × String)) (vm : Vm) : Vm :=
  match res vm.name with
  | some (v, m) => { vm with vcpus := v, memory := m }
  | none => vm

/-- `get_vm_list` (src/main.rs lines 121-154): `listOut` is the stdout of
the list command, or `Except.error ()` when it could not be invoked or
exited non-zero — in which case the program prints a diagnostic and exits
with status 1 (modelled by propagating the error). On success, parse and
enrich every record in place. -/
def get_vm_list (listOut : Except Unit String)
    (res : String → Option (String × String)) : Except Unit (List Vm) :=
  match listOut with
  | .error e => .error e
  | .ok out => .ok ((parse_virsh_output out).foldl (fun acc vm => acc ++ [enrichVm res vm]) [])

/-- Pending lifecycle action (enum Action, src/main.rs lines 24-27). -/
inductive ActionM where
  | start
  | shutdown
  deriving DecidableEq, Repr

/-- Interaction mode (enum Mode, src/main.rs lines 29-33). -/
inductive ModeM where
  | normal
  | sshInput (vm_name ip : String)
  | confirm (vm_name : String) (action : ActionM)
  deriving DecidableEq, Repr

/-- The mutable application state (struct App, src/main.rs lines 35-42).
`selected` models `table_state.selected()`. -/
structure AppM where
  vms : List Vm
  selected : Option Nat
  mode : ModeM
  input : String
  show_all : Bool
  info_cache : Option (String × String)
  deriving DecidableEq, Repr

/-- Pure environment standing for the external commands consulted during
one operation. -/
structure Env where
  info : String → String
  list : Bool → List Vm
  ip : String → Option String

/-- Key events, at the granularity `run` distinguishes them. -/
inductive Key where
  | down
  | up
  | enter
  | esc
  | backspace
  | char (c : Char)
  | otherKey
  deriving DecidableEq, Repr

/-- One iteration of the event loop: a key press, or the poll timeout. -/
inductive Op where
  | key (k : Key)
  | tick
  deriving DecidableEq, Repr

/-- `selected_vm` (src/main.rs lines 103-105). -/
def AppM.selected_vm (a : AppM) : Option Vm :=
  a.selected.bind fun i => a.vms.get? i

/-- Models Rust `String::pop` on the input buffer. -/
def popStr (s : String) : String := ⟨s.data.dropLast⟩

/-- `update_info_cache` (src/main.rs lines 61-76), also counting whether
`get_vm_info` was invoked: clear the cache when nothing is selected;
recompute when nothing was cached or the cached key differs from the
selected name; keep the cache otherwise. -/
def AppM.update_info_cache (info : String → String) (a : AppM) : AppM × Nat :=
  match a.info_cache, a.selected_vm.map Vm.name with
  | some (cached, _), some n =>
    if cached ≠ n then ({ a with info_cache := some (n, info n) }, 1) else (a, 0)
  | none, some n => ({ a with info_cache := some (n, info n) }, 1)
  | _, none => ({ a with info_cache := none }, 0)

/-- `refresh_vms` (src/main.rs lines 78-89): replace the inventory with
`newList`, clamp the cursor (or clear it on an empty list), drop the
cache and recompute it. -/
def AppM.refresh_vms (info : String → String) (newList : List Vm) (a : AppM) : AppM × Nat :=
  let sel := a.selected
  let a := { a with vms := newList }
  let a :=
    if a.vms.isEmpty then { a with selected := none }
    else { a with selected := some (min (sel.getD 0) (a.vms.length - 1)) }
  AppM.update_info_cache info { a with info_cache := none }

/-- `next` (src/main.rs lines 91-101): circular downward cursor move. -/
def AppM.next (a : AppM) : AppM :=
  if a.vms.isEmpty then a
  else
    let i :=
      match a.selected with
      | some i => if a.vms.length - 1 ≤ i then 0 else i + 1
      | none => 0
    { a with selected := some i }

/-- `previous` (src/main.rs lines 107-117): circular upward cursor move. -/
def AppM.previous (a : AppM) : AppM :=
  if a.vms.isEmpty then a
  else
    let i :=
      match a.selected with
      | some 0 => a.vms.length - 1
      | some (j + 1) => j
      | none => 0
    { a with selected := some i }

/-- `App::new` (src/main.rs lines 45-59) followed by the initial
`update_info_cache` of `main` (src/main.rs line 404): select index 0 when
the list is non-empty, empty input, empty cache, then prime the cache. -/
def initialApp (info : String → String) (show_all : Bool) (l : List Vm) : AppM :=
  (AppM.update_info_cache info
    { vms := l, selected := if l.isEmpty then none else some 0, mode := .normal,
      input := "", show_all := show_all, info_cache := none }).1

/-- One iteration of `run` (src/main.rs lines 615-767), dispatching on the
current mode exactly as the source match does, paired with the number of
detail-cache recomputations it performs. Quitting, opening a console and
running ssh leave the state unchanged. -/
def stepCount (env : Env) (op : Op) (a : AppM) : AppM × Nat :=
  match op with
  | .tick => AppM.refresh_vms env.info (env.list a.show_all) a
  | .key k =>
    match a.mode with
    | .normal =>
      match k with
      | .char 'q' => (a, 0)
      | .esc => (a, 0)
      | .down => AppM.update_info_cache env.info (AppM.next a)
      | .char 'j' => AppM.update_info_cache env.info (AppM.next a)
      | .up => AppM.update_info_cache env.info (AppM.previous a)
      | .char 'k' => AppM.update_info_cache env.info (AppM.previous a)
      | .enter => (a, 0)
      | .char 's' =>
        match a.selected_vm with
        | some vm =>
          if vm.state = "running" then
            match env.ip vm.name with
            | some ip => ({ a with input := "", mode := .sshInput vm.name ip }, 0)
            | none => (a, 0)
          else (a, 0)
        | none => (a, 0)
      | .char 'u' =>
        match a.selected_vm with
        | some vm =>
          if vm.state = "shut off" then ({ a with mode := .confirm vm.name .start }, 0)
          else (a, 0)
        | none => (a, 0)
      | .char 'A' =>
        AppM.refresh_vms env.info (env.list (!a.show_all)) { a with show_all := !a.show_all }
      | .char 'd' =>
        match a.selected_vm with
        | some vm =>
          if vm.state = "running" then ({ a with mode := .confirm vm.name .shutdown }, 0)
          else (a, 0)
        | none => (a, 0)
      | _ => (a, 0)
    | .confirm _ _ =>
      match k with
      | .char 'y' => AppM.refresh_vms env.info (env.list a.show_all) { a with mode := .normal }
      | .char 'n' => ({ a with mode := .normal }, 0)
      | .esc => ({ a with mode := .normal }, 0)
      | _ => (a, 0)
    | .sshInput _ _ =>
      match k with
      | .enter =>
        if ¬(trimStr a.input).isEmpty then ({ a with mode := .normal, input := "" }, 0)
        else (a, 0)
      | .esc => ({ a with mode := .normal, input := "" }, 0)
      | .backspace => ({ a with input := popStr a.input }, 0)
      | .char c => ({ a with input := a.input.push c }, 0)
      | _ => (a, 0)

/-- The state after one event-loop iteration. -/
def step (env : Env) (op : Op) (a : AppM) : AppM := (stepCount env op a).1

/-- Run `k` consecutive "down" presses, accumulating the number of
detail-cache recomputations. -/
def downsRec (env : Env) : Nat → AppM → AppM × Nat
  | 0, a => (a, 0)
  | k + 1, a =>
    let p := stepCount env (.key .down) a
    let q := downsRec env k p.1
    (q.1, p.2 + q.2)

/-- The detail-cache invariant of the spec: the cached key equals the name
of the currently selected VM, and the cache is empty when nothing is
selected. -/
def cacheInv (a : AppM) : Prop :=
  a.info_cache.map Prod.fst = a.selected_vm.map Vm.name

/-- The input-buffer invariant: outside the SSH-username mode the buffer
is empty. -/
def inputInv (a : AppM) : Prop :=
  (match a.mode with | ModeM.sshInput _ _ => False | _ => True) → a.input = ""

def vmA : Vm := ⟨"1", "a", "N/A", "N/A", "running"⟩

def vmB : Vm := ⟨"2", "b", "N/A", "N/A", "running"⟩

def envW : Env := ⟨fun n => n, fun _ => [], fun _ => none⟩

def aW6 : AppM := ⟨[vmA, vmB], some 0, .normal, "", true, some ("a", "a")⟩

def envC6 : Env := ⟨fun n => n, fun _ => [vmA], fun _ => none⟩

def aC6 : AppM := ⟨[vmA], some 0, .normal, "", true, some ("a", "a")⟩

def aW8 : AppM := ⟨[vmA, vmB], some 1, .normal, "", true, none⟩

theorem virshStep_eq (vms : List Vm) (line : String) :
    virshStep vms line = vms ++ (rowToVm line).toList := by
  simp only [virshStep, rowToVm]
  split
  · simp
  · split <;> simp

theorem foldl_virshStep (ls : List String) :
    ∀ acc : List Vm, ls.foldl virshStep acc = acc ++ ls.filterMap rowToVm := by
  induction ls with
  | nil => intro acc; simp
  | cons l t ih =>
    intro acc
    rw [List.foldl_cons, ih, virshStep_eq, List.filterMap_cons]
    cases h : rowToVm l <;> simp [h]

/-- Claim C1: for every input string, the tabular list parser skips the
first two lines unconditionally and, among the remaining lines (after
trimming, dropping empty lines and lines consisting entirely of the dash
separator), returns exactly the lines with at least 3 whitespace tokens,
in original order, as records with id = token 0, name = token 1, state =
the remaining tokens joined with single spaces, and vcpus/memory
defaulted to N/A; rows with fewer tokens are dropped without error and an
empty result is returned normally (the function is total and yields the
plain `filterMap` of the admission rule `rowToVm`). -/
theorem claim_C1 (out : String) :
    parse_virsh_output out = ((rustLines out).drop 2).filterMap rowToVm := by
  unfold parse_virsh_output
  simpa using foldl_virshStep ((rustLines out).drop 2) []

theorem mem_insertAll (xs : List String) :
    ∀ (acc : List String) (y : String), y ∈ insertAll acc xs ↔ y ∈ acc ∨ y ∈ xs := by
  induction xs with
  | nil => intro acc y; simp [insertAll]
  | cons x t ih =>
    intro acc y
    show y ∈ insertAll (pushNew acc x) t ↔ _
    rw [ih]
    unfold pushNew
    split <;> rename_i hx
    · have hyx : y = x → y ∈ acc := fun e => e ▸ hx
      simp only [List.mem_cons]
      tauto
    · simp only [List.mem_append, List.mem_singleton, List.mem_cons]
      tauto

theorem insertAll_append (acc l₁ l₂ : List String) :
    insertAll acc (l₁ ++ l₂) = insertAll (insertAll acc l₁) l₂ :=
  List.foldl_append pushNew acc l₁ l₂

theorem insertAll_pushNew (acc b : List String) (x : String) :
    insertAll acc (pushNew b x) = pushNew (insertAll acc b) x := by
  unfold pushNew
  split <;> rename_i hx
  · have : x ∈ insertAll acc b := (mem_insertAll b acc x).2 (Or.inr hx)
    simp [this]
  · rw [insertAll_append]
    rfl

theorem insertAll_insertAll (xs : List String) :
    ∀ acc b : List String, insertAll acc (insertAll b xs) = insertAll (insertAll acc b) xs := by
  induction xs with
  | nil => intro acc b; rfl
  | cons x t ih =>
    intro acc b
    show insertAll acc (insertAll (pushNew b x) t) = insertAll (insertAll acc b) (x :: t)
    rw [ih]
    show insertAll (insertAll acc (pushNew b x)) t = insertAll (pushNew (insertAll acc b) x) t
    rw [insertAll_pushNew]

theorem parse_domifaddr_eq (out : String) :
    parse_domifaddr_output out = insertAll [] (domifaddrAddrs out) := by
  unfold parse_domifaddr_output domifaddrAddrs
  generalize (rustLines out).drop 2 = ls
  suffices h : ∀ acc, ls.foldl domifaddrStep acc = insertAll acc (ls.filterMap domifaddrRow) by
    exact h []
  induction ls with
  | nil => intro acc; rfl
  | cons l t ih =>
    intro acc
    rw [List.foldl_cons, List.filterMap_cons]
    unfold domifaddrStep
    cases h : domifaddrRow l
    · simpa using ih acc
    · rename_i ip
      show t.foldl domifaddrStep (pushNew acc ip) = insertAll acc (ip :: t.filterMap domifaddrRow)
      rw [ih]
      rfl

/-- Claim C2: for every environment of domifaddr results, the address
resolver queries the sources "lease", "arp", "agent" in that fixed order,
tries every source even after earlier sources produced addresses, skips a
failing source, and returns the first-occurrence union of the addresses
extracted from each successful output (skip two header lines; rows with
at least 4 tokens whose token 2 is "ipv4" contribute token 3 with the
trailing slash-prefix stripped); an empty result is returned normally. -/
theorem claim_C2 (env : String → Option String) :
    get_vm_ips env =
      insertAll [] (List.flatten ((ipSources.filterMap env).map domifaddrAddrs)) := by
  unfold get_vm_ips
  generalize ipSources = srcs
  suffices h : ∀ acc, srcs.foldl (sourceStep env) acc =
      insertAll acc (List.flatten ((srcs.filterMap env).map domifaddrAddrs)) by
    exact h []
  induction srcs with
  | nil => intro acc; rfl
  | cons s t ih =>
    intro acc
    rw [List.foldl_cons, List.filterMap_cons]
    unfold sourceStep
    cases h : env s
    · exact ih acc
    · rename_i out
      show t.foldl (sourceStep env) (insertAll acc (parse_domifaddr_output out)) = _
      rw [ih, parse_domifaddr_eq, insertAll_insertAll]
      show insertAll (insertAll acc (domifaddrAddrs out))
          (List.flatten ((t.filterMap env).map domifaddrAddrs)) = _
      rw [List.map_cons, List.flatten_cons, insertAll_append]

/-- Claim C3: for every string parsing as a numeric value `v` below 2^53 —
the range in which the program's f64 parse is exact, so that the exact
model coincides with the program (the bound `hrange` restricts the
statement to that faithful range and is what keeps values at or beyond
2^53, where f64 parsing rounds, out of the claim) — the memory-to-MiB
conversion maps unit KiB to `v/1024`, MiB to `v`, GiB to `v*1024`, and
b/byte/bytes to `v/1048576`, returns no value for any unrecognized unit
(leaving "N/A"), defaults the unit to KiB when absent, and formats with
zero decimal places when the absolute fractional part is below 0.01 and
one decimal place otherwise, suffixed with " MiB"; in particular
`convert(1048576, b) = convert(1024, KiB) = "1 MiB"` and
`convert(1536, KiB) = "1.5 MiB"`. -/
theorem claim_C3 (value : String) (v : Nat) (hv : parseUIntStr value = some v)
    (hrange : v < 2 ^ 53) :
    convert_memory_to_mib value (some "KiB") = some (fmtMiB ⟨v, 1024⟩) ∧
    convert_memory_to_mib value (some "MiB") = some (fmtMiB ⟨v, 1⟩) ∧
    convert_memory_to_mib value (some "GiB") = some (fmtMiB ⟨(v : Int) * 1024, 1⟩) ∧
    convert_memory_to_mib value (some "b") = some (fmtMiB ⟨v, 1024 * 1024⟩) ∧
    convert_memory_to_mib value (some "byte") = some (fmtMiB ⟨v, 1024 * 1024⟩) ∧
    convert_memory_to_mib value (some "bytes") = some (fmtMiB ⟨v, 1024 * 1024⟩) ∧
    (∀ u : String,
      asciiLower u ∉ (["kib", "mib", "gib", "b", "byte", "bytes"] : List String) →
      convert_memory_to_mib value (some u) = none) ∧
    convert_memory_to_mib value none = convert_memory_to_mib value (some "KiB") ∧
    convert_memory_to_mib "1048576" (some "b") = some "1 MiB" ∧
    convert_memory_to_mib "1024" (some "KiB") = some "1 MiB" ∧
    convert_memory_to_mib "1536" (some "KiB") = some "1.5 MiB" := by
  refine ⟨?_, ?_, ?_, ?_, ?_, ?_, ?_, ?_, by decide, by decide, by decide⟩
  · simp [convert_memory_to_mib, hv, fmtMiB]; rfl
  · simp [convert_memory_to_mib, hv, fmtMiB]; rfl
  · simp [convert_memory_to_mib, hv, fmtMiB]; rfl
  · simp [convert_memory_to_mib, hv, fmtMiB]; rfl
  · simp [convert_memory_to_mib, hv, fmtMiB]; rfl
  · simp [convert_memory_to_mib, hv, fmtMiB]; rfl
  · intro u hu
    simp only [List.mem_cons, List.not_mem_nil, or_false, not_or] at hu
    obtain ⟨h1, h2, h3, h4, h5, h6⟩ := hu
    simp [convert_memory_to_mib, hv, h1, h2, h3, h4, h5, h6]
  · simp [convert_memory_to_mib, hv]

/-- Witness for C3 at the concrete input "1536": both hypotheses hold (the
string parses to 1536, which is below 2^53) and the KiB conversion yields
the claimed formatted string. -/
theorem claim_C3_witness :
    convert_memory_to_mib "1536" (some "KiB") = some (fmtMiB ⟨1536, 1024⟩) :=
  (claim_C3 "1536" 1536 (by decide) (by decide)).1

theorem oalt_assoc (a b c : Option String) : oalt (oalt a b) c = oalt a (oalt b c) := by
  cases a <;> cases b <;> rfl

theorem resStep_run (toks : List XmlToken) :
    ∀ (stack : List String) (v m u : Option String),
      toks.foldl resStep ⟨stack, v, m, u⟩ =
        ⟨(toks.foldl resStep ⟨stack, v, m, u⟩).stack,
          oalt v (firstTextIn "vcpu" stack toks),
          oalt m (firstTextIn "memory" stack toks),
          oalt (lastUnitIn stack toks) u⟩ := by
  induction toks with
  | nil =>
    intro stack v m u
    simp only [List.foldl_nil, firstTextIn, lastUnitIn]
    cases v <;> cases m <;> rfl
  | cons tok rest ih =>
    intro stack v m u
    cases tok with
    | elementStart n =>
      simp only [List.foldl_cons, resStep, firstTextIn, lastUnitIn]
      exact ih (n :: stack) v m u
    | attr l v' =>
      simp only [List.foldl_cons, resStep, firstTextIn, lastUnitIn]
      by_cases h : stack.head? = some "memory" ∧ l = "unit"
      · simp only [if_pos h]
        rw [ih stack v m (some v')]
        have : oalt (lastUnitIn stack rest) (some v') =
            oalt (oalt (lastUnitIn stack rest) (some v')) u := by
          cases hl : lastUnitIn stack rest <;> rfl
        rw [← this]
      · simp only [if_neg h]
        rw [ih stack v m u]
        have : oalt (oalt (lastUnitIn stack rest) none) u =
            oalt (lastUnitIn stack rest) u := by
          cases hl : lastUnitIn stack rest <;> rfl
        rw [this]
    | text t =>
      simp only [List.foldl_cons, resStep, firstTextIn, lastUnitIn]
      split_ifs <;>
        first
          | (rw [ih]; clear ih; (cases v <;> cases m <;> simp_all [oalt]))
          | (exact ih stack v m u)
    | elementEndOpen =>
      simp only [List.foldl_cons, resStep, firstTextIn, lastUnitIn]
      exact ih stack v m u
    | elementEndEmpty =>
      simp only [List.foldl_cons, resStep, firstTextIn, lastUnitIn]
      exact ih stack.tail v m u
    | elementEndClose =>
      simp only [List.foldl_cons, resStep, firstTextIn, lastUnitIn]
      exact ih stack.tail v m u
    | other =>
      simp only [List.foldl_cons, resStep, firstTextIn, lastUnitIn]
      exact ih stack v m u

/-- Claim C4 (amended): over any token stream, the vcpu count is the first
non-empty text directly inside a `vcpu` element and the raw memory value
is the first non-empty text directly inside a `memory` element; but the
unit used to normalize it is the LAST `unit` attribute appearing on any
`memory` element of the whole stream (defaulting to KiB inside the
conversion when none appears) — not necessarily the `unit` attribute of
the element that supplied the text, as the original claim states. -/
theorem claim_C4 (toks : List XmlToken) :
    parse_dumpxml_resources toks =
      (firstTextIn "vcpu" [] toks,
        (firstTextIn "memory" [] toks).bind fun v =>
          convert_memory_to_mib v (lastUnitIn [] toks)) := by
  unfold parse_dumpxml_resources
  rw [resStep_run toks [] none none none]
  have h1 : oalt none (firstTextIn "vcpu" [] toks) = firstTextIn "vcpu" [] toks := by
    cases firstTextIn "vcpu" [] toks <;> rfl
  have h2 : oalt none (firstTextIn "memory" [] toks) = firstTextIn "memory" [] toks := by
    cases firstTextIn "memory" [] toks <;> rfl
  have h3 : oalt (lastUnitIn [] toks) none = lastUnitIn [] toks := by
    cases lastUnitIn [] toks <;> rfl
  simp only [h1, h2, h3]

/-- Counterexample to C4 as stated: on `c4Toks` the memory element that
supplies the text "1024" has no unit attribute, so under the claim the
unit would default to KiB, yielding "1 MiB"; the code instead uses the
later memory element's unit attribute GiB and yields "1048576 MiB". -/
theorem claim_C4_counterexample :
    (parse_dumpxml_resources c4Toks).2 = some "1048576 MiB" ∧
    convert_memory_to_mib "1024" (some "KiB") = some "1 MiB" ∧
    some "1048576 MiB" ≠ some "1 MiB" := by
  refine ⟨by decide, by decide, by decide⟩

theorem diskAttrStep_source (n v : String) (em : Option String) (nets ifs ds : List String)
    (isd : Bool) (tg so : Option String) (ci : Option IfaceInfo) :
    diskAttrStep "source" n v ⟨["source", "disk"], em, nets, ifs, ds, some ⟨isd, tg, so⟩, ci⟩ =
      ⟨["source", "disk"], em, nets, ifs, ds,
        some ⟨isd, tg, if srcAttrNames.contains n ∧ so = none then some v else so⟩, ci⟩ := by
  simp only [diskAttrStep, srcAttrNames]
  split_ifs <;> first | rfl | simp_all

theorem attrStep_sourceDisk (n v : String) (em : Option String) (nets ifs ds : List String)
    (isd : Bool) (tg so : Option String) :
    attrStep n v ⟨["source", "disk"], em, nets, ifs, ds, some ⟨isd, tg, so⟩, none⟩ =
      ⟨["source", "disk"], em, nets, ifs, ds,
        some ⟨isd, tg, if srcAttrNames.contains n ∧ so = none then some v else so⟩, none⟩ := by
  show attrStep n v ⟨["source", "disk"], em, nets, ifs, ds, some ⟨isd, tg, so⟩, none⟩ = _
  simp only [attrStep, List.head?_cons]
  rw [diskAttrStep_source]
  simp [networksStep]

theorem foldl_srcAttrs (attrs : List (String × String)) :
    ∀ (em : Option String) (nets ifs ds : List String) (isd : Bool) (tg so : Option String),
      List.foldl sumStep ⟨["source", "disk"], em, nets, ifs, ds, some ⟨isd, tg, so⟩, none⟩
          (attrs.map fun p => XmlToken.attr p.1 p.2) =
        ⟨["source", "disk"], em, nets, ifs, ds,
          some ⟨isd, tg,
            oalt so ((attrs.find? fun p => srcAttrNames.contains p.1).map Prod.snd)⟩,
          none⟩ := by
  induction attrs with
  | nil =>
    intro em nets ifs ds isd tg so
    simp only [List.map_nil, List.foldl_nil, List.find?_nil]
    cases so <;> rfl
  | cons p rest ih =>
    intro em nets ifs ds isd tg so
    obtain ⟨n, v⟩ := p
    simp only [List.map_cons, List.foldl_cons]
    have hs : sumStep ⟨["source", "disk"], em, nets, ifs, ds, some ⟨isd, tg, so⟩, none⟩
        (XmlToken.attr n v) =
        attrStep n v ⟨["source", "disk"], em, nets, ifs, ds, some ⟨isd, tg, so⟩, none⟩ := rfl
    rw [hs, attrStep_sourceDisk]
    by_cases hmem : n ∈ srcAttrNames
    · have hn : srcAttrNames.contains n = true := by simpa using hmem
      have hfind : List.find? (fun q : String × String => srcAttrNames.contains q.1)
          ((n, v) :: rest) = some (n, v) := by
        simp [List.find?_cons, hmem]
      cases so with
      | none =>
        rw [if_pos ⟨hn, rfl⟩, ih, hfind]
        rfl
      | some s0 =>
        rw [if_neg (by simp), ih, hfind]
        rfl
    · have hfind : List.find? (fun q : String × String => srcAttrNames.contains q.1)
          ((n, v) :: rest) =
          List.find? (fun q : String × String => srcAttrNames.contains q.1) rest := by
        simp [List.find?_cons, hmem]
      rw [if_neg (by simp [hmem]), ih, hfind]

theorem devAttrStep_ne (d : String) (hd : d ≠ "disk") :
    sumStep ⟨["disk"], none, [], [], [], some ⟨false, none, none⟩, none⟩
        (XmlToken.attr "device" d) =
      ⟨["disk"], none, [], [], [], some ⟨false, none, none⟩, none⟩ := by
  show attrStep "device" d ⟨["disk"], none, [], [], [], some ⟨false, none, none⟩, none⟩ = _
  simp only [attrStep, List.head?_cons, diskAttrStep, networksStep]
  simp [hd]

/-- Claim C5 (amended): in the domain summary, a disk element of the form
`<disk [device=..]><target [dev=..]/><source ../></disk>` contributes an
entry "target: source" (with "unknown" for a missing part) if and only if
its device attribute equals "disk" — a cdrom disk never appears — where
target is the target child's dev attribute and source is the FIRST
attribute of the source child IN DOCUMENT ORDER whose name is among
file, dev, name, volume, path (the source checks names but takes
whichever qualifying attribute the tokenizer yields first, not the
file-over-dev priority order the original claim states). -/
theorem claim_C5 (device targetDev : Option String) (src : List (String × String)) :
    dumpxmlDisks (mkDiskTokens device targetDev src) =
      (if device = some "disk" then
        [targetDev.getD "unknown" ++ ": " ++
          (((src.find? fun p => srcAttrNames.contains p.1).map Prod.snd).getD "unknown")]
      else []) := by
  unfold dumpxmlDisks runSummarize
  cases device with
  | none =>
    cases targetDev with
    | none =>
      have hlist : mkDiskTokens none none src =
          [XmlToken.elementStart "disk", XmlToken.elementEndOpen,
           XmlToken.elementStart "target", XmlToken.elementEndEmpty,
           XmlToken.elementStart "source"] ++
          ((src.map fun p => XmlToken.attr p.1 p.2) ++
           [XmlToken.elementEndEmpty, XmlToken.elementEndClose]) := rfl
      rw [hlist, List.foldl_append, List.foldl_append]
      rw [show List.foldl sumStep sumInit
          [XmlToken.elementStart "disk", XmlToken.elementEndOpen,
           XmlToken.elementStart "target", XmlToken.elementEndEmpty,
           XmlToken.elementStart "source"] =
          ⟨["source", "disk"], none, [], [], [], some ⟨false, none, none⟩, none⟩ from rfl]
      rw [foldl_srcAttrs]
      rfl
    | some t =>
      have hlist : mkDiskTokens none (some t) src =
          [XmlToken.elementStart "disk", XmlToken.elementEndOpen,
           XmlToken.elementStart "target", XmlToken.attr "dev" t, XmlToken.elementEndEmpty,
           XmlToken.elementStart "source"] ++
          ((src.map fun p => XmlToken.attr p.1 p.2) ++
           [XmlToken.elementEndEmpty, XmlToken.elementEndClose]) := rfl
      rw [hlist, List.foldl_append, List.foldl_append]
      rw [show List.foldl sumStep sumInit
          [XmlToken.elementStart "disk", XmlToken.elementEndOpen,
           XmlToken.elementStart "target", XmlToken.attr "dev" t, XmlToken.elementEndEmpty,
           XmlToken.elementStart "source"] =
          ⟨["source", "disk"], none, [], [], [], some ⟨false, some t, none⟩, none⟩ from rfl]
      rw [foldl_srcAttrs]
      rfl
  | some d =>
    by_cases hd : d = "disk"
    · subst hd
      cases targetDev with
      | none =>
        have hlist : mkDiskTokens (some "disk") none src =
            [XmlToken.elementStart "disk", XmlToken.attr "device" "disk",
             XmlToken.elementEndOpen, XmlToken.elementStart "target",
             XmlToken.elementEndEmpty, XmlToken.elementStart "source"] ++
            ((src.map fun p => XmlToken.attr p.1 p.2) ++
             [XmlToken.elementEndEmpty, XmlToken.elementEndClose]) := rfl
        rw [hlist, List.foldl_append, List.foldl_append]
        rw [show List.foldl sumStep sumInit
            [XmlToken.elementStart "disk", XmlToken.attr "device" "disk",
             XmlToken.elementEndOpen, XmlToken.elementStart "target",
             XmlToken.elementEndEmpty, XmlToken.elementStart "source"] =
            ⟨["source", "disk"], none, [], [], [], some ⟨true, none, none⟩, none⟩ from rfl]
        rw [foldl_srcAttrs]
        rfl
      | some t =>
        have hlist : mkDiskTokens (some "disk") (some t) src =
            [XmlToken.elementStart "disk", XmlToken.attr "device" "disk",
             XmlToken.elementEndOpen, XmlToken.elementStart "target",
             XmlToken.attr "dev" t, XmlToken.elementEndEmpty,
             XmlToken.elementStart "source"] ++
            ((src.map fun p => XmlToken.attr p.1 p.2) ++
             [XmlToken.elementEndEmpty, XmlToken.elementEndClose]) := rfl
        rw [hlist, List.foldl_append, List.foldl_append]
        rw [show List.foldl sumStep sumInit
            [XmlToken.elementStart "disk", XmlToken.attr "device" "disk",
             XmlToken.elementEndOpen, XmlToken.elementStart "target",
             XmlToken.attr "dev" t, XmlToken.elementEndEmpty,
             XmlToken.elementStart "source"] =
            ⟨["source", "disk"], none, [], [], [], some ⟨true, some t, none⟩, none⟩ from rfl]
        rw [foldl_srcAttrs]
        rfl
    · cases targetDev with
      | none =>
        have hlist : mkDiskTokens (some d) none src =
            [XmlToken.elementStart "disk", XmlToken.attr "device" d] ++
            ([XmlToken.elementEndOpen, XmlToken.elementStart "target",
              XmlToken.elementEndEmpty, XmlToken.elementStart "source"] ++
             ((src.map fun p => XmlToken.attr p.1 p.2) ++
              [XmlToken.elementEndEmpty, XmlToken.elementEndClose])) := rfl
        rw [hlist, List.foldl_append, List.foldl_append, List.foldl_append]
        rw [show List.foldl sumStep sumInit
            [XmlToken.elementStart "disk", XmlToken.attr "device" d] =
            sumStep ⟨["disk"], none, [], [], [], some ⟨false, none, none⟩, none⟩
              (XmlToken.attr "device" d) from rfl]
        rw [devAttrStep_ne d hd]
        rw [show List.foldl sumStep
            ⟨["disk"], none, [], [], [], some ⟨false, none, none⟩, none⟩
            [XmlToken.elementEndOpen, XmlToken.elementStart "target",
             XmlToken.elementEndEmpty, XmlToken.elementStart "source"] =
            ⟨["source", "disk"], none, [], [], [], some ⟨false, none, none⟩, none⟩ from rfl]
        rw [foldl_srcAttrs, if_neg (show ¬(some d = some "disk") by simp [hd])]
        rfl
      | some t =>
        have hlist : mkDiskTokens (some d) (some t) src =
            [XmlToken.elementStart "disk", XmlToken.attr "device" d] ++
            ([XmlToken.elementEndOpen, XmlToken.elementStart "target",
              XmlToken.attr "dev" t, XmlToken.elementEndEmpty,
              XmlToken.elementStart "source"] ++
             ((src.map fun p => XmlToken.attr p.1 p.2) ++
              [XmlToken.elementEndEmpty, XmlToken.elementEndClose])) := rfl
        rw [hlist, List.foldl_append, List.foldl_append, List.foldl_append]
        rw [show List.foldl sumStep sumInit
            [XmlToken.elementStart "disk", XmlToken.attr "device" d] =
            sumStep ⟨["disk"], none, [], [], [], some ⟨false, none, none⟩, none⟩
              (XmlToken.attr "device" d) from rfl]
        rw [devAttrStep_ne d hd]
        rw [show List.foldl sumStep
            ⟨["disk"], none, [], [], [], some ⟨false, none, none⟩, none⟩
            [XmlToken.elementEndOpen, XmlToken.elementStart "target",
             XmlToken.attr "dev" t, XmlToken.elementEndEmpty,
             XmlToken.elementStart "source"] =
            ⟨["source", "disk"], none, [], [], [], some ⟨false, some t, none⟩, none⟩ from rfl]
        rw [foldl_srcAttrs, if_neg (show ¬(some d = some "disk") by simp [hd])]
        rfl

/-- Counterexample to C5 as stated: with `volume="v"` preceding `file="f"`
on the source child, the claimed file-over-volume priority order would
yield "vda: f"; the code takes the first qualifying attribute in document
order and yields "vda: v". -/
theorem claim_C5_counterexample :
    dumpxmlDisks c5Toks = ["vda: v"] ∧ (["vda: v"] : List String) ≠ ["vda: f"] := by
  refine ⟨by decide, by decide⟩

theorem foldl_enrich (res : String → Option (String × String)) (vms : List Vm) :
    ∀ acc, vms.foldl (fun acc vm => acc ++ [enrichVm res vm]) acc = acc ++ vms.map (enrichVm res) := by
  induction vms with
  | nil => intro acc; simp
  | cons vm t ih => intro acc; rw [List.foldl_cons, ih]; simp

/-- Claim C9: failure of the list command terminates the program (modelled:
`get_vm_list` propagates the fatal error and produces no inventory),
whereas per-VM enrichment failure never does: the result on success is
exactly the parsed records mapped through `enrichVm`, so each record
depends only on its own resource lookup; a lookup that fails (`none`)
leaves the record untouched with its "N/A" defaults, as the identity-map
equation shows, and `get_vm_resources` of a failed dump is `none` rather
than an abort. -/
theorem claim_C9 :
    (∀ (res : String → Option (String × String)) (e : Unit),
      get_vm_list (.error e) res = .error e) ∧
    (∀ (out : String) (res : String → Option (String × String)),
      get_vm_list (.ok out) res = .ok ((parse_virsh_output out).map (enrichVm res))) ∧
    (∀ out : String,
      get_vm_list (.ok out) (fun _ => none) = .ok (parse_virsh_output out)) ∧
    get_vm_resources none = none := by
  refine ⟨fun res e => rfl, fun out res => ?_, fun out => ?_, rfl⟩
  · show Except.ok (List.foldl (fun acc vm => acc ++ [enrichVm res vm]) [] (parse_virsh_output out)) = _
    rw [foldl_enrich]
    rfl
  · show Except.ok (List.foldl (fun acc vm => acc ++ [enrichVm (fun _ => none) vm]) []
      (parse_virsh_output out)) = _
    rw [foldl_enrich]
    have h : enrichVm (fun _ => none) = fun vm => vm := funext fun vm => rfl
    rw [h]
    simp

theorem selected_vm_set_cache (a : AppM) (x : Option (String × String)) :
    (AppM.selected_vm { a with info_cache := x }) = a.selected_vm := rfl

theorem update_cacheInv (info : String → String) (a : AppM) :
    cacheInv (AppM.update_info_cache info a).1 := by
  unfold AppM.update_info_cache cacheInv
  split
  · split
    · rename_i cached snd n hc hs hne
      exact hs.symm
    · rename_i cached snd n hc hs hne
      simp [hc, hs, not_not.mp hne]
  · rename_i n hc hs
    exact hs.symm
  · rename_i hs
    exact hs.symm

theorem refresh_cacheInv (info : String → String) (newList : List Vm) (a : AppM) :
    cacheInv (AppM.refresh_vms info newList a).1 :=
  update_cacheInv info _

/-- Claim C7: after every state-machine operation (cursor move, inventory
refresh, show-inactive toggle, timer tick, mode transition — every key
event and tick handled by the event loop), the detail cache's key equals
the name of the currently selected VM, and the cache is empty when no VM
is selected: the invariant `cacheInv` holds in the initial state and is
preserved by every step. -/
theorem claim_C7 :
    (∀ (info : String → String) (sa : Bool) (l : List Vm),
      cacheInv (initialApp info sa l)) ∧
    (∀ (env : Env) (op : Op) (a : AppM), cacheInv a → cacheInv (step env op a)) := by
  constructor
  · intro info sa l
    exact update_cacheInv info _
  · intro env op a h
    cases op with
    | tick => exact refresh_cacheInv env.info (env.list a.show_all) a
    | key k =>
      show cacheInv (stepCount env (.key k) a).1
      unfold stepCount
      (repeat' split) <;>
        first
          | exact update_cacheInv _ _
          | exact refresh_cacheInv _ _ _
          | exact h

theorem update_input (info : String → String) (a : AppM) :
    (AppM.update_info_cache info a).1.input = a.input := by
  unfold AppM.update_info_cache
  (repeat' split) <;> rfl

theorem update_mode (info : String → String) (a : AppM) :
    (AppM.update_info_cache info a).1.mode = a.mode := by
  unfold AppM.update_info_cache
  (repeat' split) <;> rfl

theorem refresh_input (info : String → String) (nl : List Vm) (a : AppM) :
    (AppM.refresh_vms info nl a).1.input = a.input := by
  simp only [AppM.refresh_vms]
  split <;> rw [update_input]

theorem refresh_mode (info : String → String) (nl : List Vm) (a : AppM) :
    (AppM.refresh_vms info nl a).1.mode = a.mode := by
  simp only [AppM.refresh_vms]
  split <;> rw [update_mode]

theorem next_input (a : AppM) : (AppM.next a).input = a.input := by
  unfold AppM.next
  split <;> rfl

theorem next_mode (a : AppM) : (AppM.next a).mode = a.mode := by
  unfold AppM.next
  split <;> rfl

theorem previous_input (a : AppM) : (AppM.previous a).input = a.input := by
  unfold AppM.previous
  split <;> rfl

theorem previous_mode (a : AppM) : (AppM.previous a).mode = a.mode := by
  unfold AppM.previous
  split <;> rfl

/-- Claim C10: whenever the interaction mode is not the SSH-username input
mode, the input buffer is empty — it is cleared on every transition into
and out of that mode and never appended to in any other mode: the
invariant `inputInv` holds initially and is preserved by every step. -/
theorem claim_C10 :
    (∀ (info : String → String) (sa : Bool) (l : List Vm),
      inputInv (initialApp info sa l)) ∧
    (∀ (env : Env) (op : Op) (a : AppM), inputInv a → inputInv (step env op a)) := by
  constructor
  · intro info sa l
    unfold initialApp inputInv
    rw [update_input, update_mode]
    intro _
    rfl
  · intro env op a h
    cases op with
    | tick =>
      show inputInv (AppM.refresh_vms env.info (env.list a.show_all) a).1
      unfold inputInv
      rw [refresh_input, refresh_mode]
      exact h
    | key k =>
      show inputInv (stepCount env (.key k) a).1
      unfold stepCount
      (repeat' split) <;>
        first
          | exact h
          | (intro _; rfl)
          | (exact fun hf => hf.elim)
          | (unfold inputInv;
             rw [update_input, update_mode, next_input, next_mode];
             exact h)
          | (unfold inputInv;
             rw [update_input, update_mode, previous_input, previous_mode];
             exact h)
          | (unfold inputInv;
             rw [refresh_input, refresh_mode];
             intro hm; refine h ?_; simp_all)
          | (intro hm; simp_all [inputInv])

theorem next_vms (a : AppM) : (AppM.next a).vms = a.vms := by
  unfold AppM.next
  split <;> rfl

theorem next_cache (a : AppM) : (AppM.next a).info_cache = a.info_cache := by
  unfold AppM.next
  split <;> rfl

theorem previous_vms (a : AppM) : (AppM.previous a).vms = a.vms := by
  unfold AppM.previous
  split <;> rfl

theorem previous_cache (a : AppM) : (AppM.previous a).info_cache = a.info_cache := by
  unfold AppM.previous
  split <;> rfl

theorem update_selected_vm (info : String → String) (x : AppM) :
    (AppM.update_info_cache info x).1.selected_vm = x.selected_vm := by
  unfold AppM.update_info_cache
  (repeat' split) <;> rfl

theorem update_count (info : String → String) (x : AppM) :
    (AppM.update_info_cache info x).2 =
      if x.selected_vm.map Vm.name ≠ none ∧
          x.info_cache.map Prod.fst ≠ x.selected_vm.map Vm.name then 1 else 0 := by
  unfold AppM.update_info_cache
  split
  · rename_i cached snd n hc hs
    split <;> rename_i hne
    · rw [if_pos ⟨by rw [hs]; simp, by rw [hc, hs]; simpa using hne⟩]
    · rw [if_neg]
      intro hp
      exact hp.2 (by rw [hc, hs, not_not.mp hne]; rfl)
  · rename_i n hc hs
    rw [if_pos ⟨by rw [hs]; simp, by rw [hc, hs]; simp⟩]
  · rename_i hs
    rw [if_neg]
    intro hp
    exact hp.1 hs

theorem refresh_count (info : String → String) (nl : List Vm) (a : AppM) :
    (AppM.refresh_vms info nl a).2 = if nl = [] then 0 else 1 := by
  simp only [AppM.refresh_vms]
  split <;> rename_i hemp
  · rw [update_count]
    simp_all [AppM.selected_vm]
  · rw [update_count]
    have hlen : 0 < nl.length := by
      cases nl with
      | nil => simp at hemp
      | cons x t => simp
    have hm : min (a.selected.getD 0) (nl.length - 1) < nl.length := by
      have := Nat.min_le_right (a.selected.getD 0) (nl.length - 1)
      omega
    obtain ⟨vm, hvm⟩ : ∃ vm, nl.get? (min (a.selected.getD 0) (nl.length - 1)) = some vm := by
      rw [List.get?_eq_get hm]
      exact ⟨_, rfl⟩
    have hne : nl ≠ [] := by intro hc; subst hc; simp at hlen
    simp_all [AppM.selected_vm]

theorem next_selected_lt (a : AppM) (hv : ¬a.vms.isEmpty = true) :
    ∃ j, (AppM.next a).selected = some j ∧ j < a.vms.length := by
  have hlen : 0 < a.vms.length := by
    cases hl : a.vms with
    | nil => rw [hl] at hv; simp at hv
    | cons x t => simp [hl]
  unfold AppM.next
  rw [if_neg hv]
  cases hs : a.selected with
  | none => exact ⟨0, rfl, hlen⟩
  | some i =>
    by_cases hi : a.vms.length - 1 ≤ i
    · exact ⟨0, by simp [hi], hlen⟩
    · exact ⟨i + 1, by simp [hi], by omega⟩

theorem down_nilcache (a : AppM) (h : cacheInv a)
    (hsel : (AppM.next a).selected_vm.map Vm.name = none) :
    a.info_cache.map Prod.fst = none := by
  by_cases hv : a.vms.isEmpty = true
  · have he : AppM.next a = a := by unfold AppM.next; rw [if_pos hv]
    rw [he] at hsel
    exact h.trans hsel
  · exfalso
    obtain ⟨j, hj, hjl⟩ := next_selected_lt a hv
    have hvm : (AppM.next a).selected_vm = a.vms.get? j := by
      unfold AppM.selected_vm
      rw [hj, next_vms]
      rfl
    rw [hvm, List.get?_eq_get hjl] at hsel
    simp at hsel

theorem up_nilcache (a : AppM) (h : cacheInv a)
    (hsel : (AppM.previous a).selected_vm.map Vm.name = none) :
    a.info_cache.map Prod.fst = none := by
  by_cases hv : a.vms.isEmpty = true
  · have he : AppM.previous a = a := by unfold AppM.previous; rw [if_pos hv]
    rw [he] at hsel
    exact h.trans hsel
  · have hlen : 0 < a.vms.length := by
      cases hl : a.vms with
      | nil => rw [hl] at hv; simp at hv
      | cons x t => simp [hl]
    cases hs : a.selected with
    | none =>
      exfalso
      have hj : (AppM.previous a).selected = some 0 := by
        unfold AppM.previous; rw [if_neg hv, hs]
      have hvm : (AppM.previous a).selected_vm = a.vms.get? 0 := by
        unfold AppM.selected_vm
        rw [hj, previous_vms]
        rfl
      rw [hvm, List.get?_eq_get hlen] at hsel
      simp at hsel
    | some i =>
      cases i with
      | zero =>
        exfalso
        have hj : (AppM.previous a).selected = some (a.vms.length - 1) := by
          unfold AppM.previous; rw [if_neg hv, hs]
        have hvm : (AppM.previous a).selected_vm = a.vms.get? (a.vms.length - 1) := by
          unfold AppM.selected_vm
          rw [hj, previous_vms]
          rfl
        have hlt : a.vms.length - 1 < a.vms.length := by omega
        rw [hvm, List.get?_eq_get hlt] at hsel
        simp at hsel
      | succ i2 =>
        have hj : (AppM.previous a).selected = some i2 := by
          unfold AppM.previous; rw [if_neg hv, hs]
        have hvm : (AppM.previous a).selected_vm = a.vms.get? i2 := by
          unfold AppM.selected_vm
          rw [hj, previous_vms]
          rfl
        by_cases hi2 : i2 < a.vms.length
        · exfalso
          rw [hvm, List.get?_eq_get hi2] at hsel
          simp at hsel
        · have hsa : a.selected_vm = none := by
            unfold AppM.selected_vm
            rw [hs]
            have hb : a.vms.length ≤ i2 + 1 := by omega
            exact List.get?_eq_none.mpr hb
          rw [h]
          rw [hsa]
          rfl

theorem count_iff_aux (sel cache : Option String) (hnil : sel = none → cache = none) :
    (if sel ≠ none ∧ cache ≠ sel then 1 else 0) = if sel = cache then 0 else 1 := by
  by_cases hs : sel = none
  · rw [hs, hnil hs]
    simp
  · by_cases hc : cache = sel
    · rw [hc]
      simp
    · rw [if_pos ⟨hs, hc⟩, if_neg (fun he => hc he.symm)]

theorem down_count (env : Env) (a : AppM) (h : cacheInv a) :
    (stepCount env (.key .down) a).2 =
      if (stepCount env (.key .down) a).1.selected_vm.map Vm.name = a.info_cache.map Prod.fst
      then 0 else 1 := by
  cases hm : a.mode with
  | normal =>
    have hstep : stepCount env (.key .down) a =
        AppM.update_info_cache env.info (AppM.next a) := by
      unfold stepCount; rw [hm]
    rw [hstep, update_count, update_selected_vm, next_cache]
    exact count_iff_aux _ _ (fun hsel => down_nilcache a h hsel)
  | sshInput vn ip =>
    have hstep : stepCount env (.key .down) a = (a, 0) := by
      unfold stepCount; rw [hm]
    rw [hstep]
    simp [h.symm]
  | confirm vn act =>
    have hstep : stepCount env (.key .down) a = (a, 0) := by
      unfold stepCount; rw [hm]
    rw [hstep]
    simp [h.symm]

theorem up_count (env : Env) (a : AppM) (h : cacheInv a) :
    (stepCount env (.key .up) a).2 =
      if (stepCount env (.key .up) a).1.selected_vm.map Vm.name = a.info_cache.map Prod.fst
      then 0 else 1 := by
  cases hm : a.mode with
  | normal =>
    have hstep : stepCount env (.key .up) a =
        AppM.update_info_cache env.info (AppM.previous a) := by
      unfold stepCount; rw [hm]
    rw [hstep, update_count, update_selected_vm, previous_cache]
    exact count_iff_aux _ _ (fun hsel => up_nilcache a h hsel)
  | sshInput vn ip =>
    have hstep : stepCount env (.key .up) a = (a, 0) := by
      unfold stepCount; rw [hm]
    rw [hstep]
    simp [h.symm]
  | confirm vn act =>
    have hstep : stepCount env (.key .up) a = (a, 0) := by
      unfold stepCount; rw [hm]
    rw [hstep]
    simp [h.symm]

theorem tick_count (env : Env) (a : AppM) :
    (stepCount env .tick a).2 = if env.list a.show_all = [] then 0 else 1 := by
  show (AppM.refresh_vms env.info (env.list a.show_all) a).2 = _
  exact refresh_count env.info (env.list a.show_all) a

theorem toggle_count (env : Env) (a : AppM) (hm : a.mode = .normal) :
    (stepCount env (.key (.char 'A')) a).2 = if env.list (!a.show_all) = [] then 0 else 1 := by
  obtain ⟨vms, sel, mode, input, sa, cache⟩ := a
  cases hm
  show (AppM.refresh_vms env.info (env.list (!sa)) ⟨vms, sel, .normal, input, !sa, cache⟩).2 = _
  rw [refresh_count]

theorem nodup_name_ne (l : List Vm) (hn : (l.map Vm.name).Nodup) (i j : Nat)
    (hi : i < l.length) (hj : j < l.length) (hij : i ≠ j) :
    (l.get ⟨i, hi⟩).name ≠ (l.get ⟨j, hj⟩).name := by
  intro he
  have hi2 : i < (l.map Vm.name).length := by simpa using hi
  have hj2 : j < (l.map Vm.name).length := by simpa using hj
  have h1 : (l.map Vm.name).get ⟨i, hi2⟩ = (l.map Vm.name).get ⟨j, hj2⟩ := by
    rw [List.get_map, List.get_map]
    exact he
  have := (hn.get_inj_iff).mp h1
  exact hij (congrArg Fin.val this)

theorem downs_count (env : Env) (l : List Vm) (hn : (l.map Vm.name).Nodup)
    (hlen : 2 ≤ l.length) :
    ∀ (k i : Nat) (a : AppM), a.vms = l → a.mode = .normal → a.selected = some i →
      i < l.length → a.info_cache.map Prod.fst = (l.get? i).map Vm.name →
      (downsRec env k a).2 = k := by
  intro k
  induction k with
  | zero => intro i a _ _ _ _ _; rfl
  | succ k ih =>
    intro i a hv hm hs hi hc
    have hnotempty : ¬a.vms.isEmpty = true := by
      rw [hv]
      cases hl : l with
      | nil => rw [hl] at hlen; simp at hlen
      | cons x t => simp
    have hstep : stepCount env (.key .down) a =
        AppM.update_info_cache env.info (AppM.next a) := by
      unfold stepCount; rw [hm]
    -- the new index
    set j := if l.length - 1 ≤ i then 0 else i + 1 with hjdef
    have hj : (AppM.next a).selected = some j := by
      unfold AppM.next
      rw [if_neg hnotempty, hs, hv]
    have hjl : j < l.length := by
      rw [hjdef]
      split <;> omega
    have hji : j ≠ i := by
      rw [hjdef]
      split <;> omega
    have hvmj : (AppM.next a).selected_vm = some (l.get ⟨j, hjl⟩) := by
      unfold AppM.selected_vm
      rw [hj, next_vms, hv]
      exact List.get?_eq_get hjl
    obtain ⟨cfst, csnd, hcache⟩ : ∃ c t, a.info_cache = some (c, t) := by
      rw [List.get?_eq_get hi] at hc
      cases hcc : a.info_cache with
      | none => rw [hcc] at hc; simp at hc
      | some p =>
        obtain ⟨c, t⟩ := p
        exact ⟨c, t, rfl⟩
    have hcfst : cfst = (l.get ⟨i, hi⟩).name := by
      rw [hcache, List.get?_eq_get hi] at hc
      simpa using hc
    have hnames : cfst ≠ (l.get ⟨j, hjl⟩).name := by
      rw [hcfst]
      exact nodup_name_ne l hn i j hi hjl (fun he => hji he.symm)
    have hncache : (AppM.next a).info_cache = some (cfst, csnd) := by
      rw [next_cache, hcache]
    -- evaluate the update step
    have hupd : AppM.update_info_cache env.info (AppM.next a) =
        ({ AppM.next a with info_cache := some ((l.get ⟨j, hjl⟩).name,
            env.info ((l.get ⟨j, hjl⟩).name)) }, 1) := by
      unfold AppM.update_info_cache
      rw [hncache, hvmj]
      dsimp only [Option.map]
      rw [if_pos hnames]
    -- one step of downsRec
    show (stepCount env (.key .down) a).2 +
        (downsRec env k (stepCount env (.key .down) a).1).2 = k + 1
    rw [hstep, hupd]
    have hnext := ih j ({ AppM.next a with info_cache := some ((l.get ⟨j, hjl⟩).name,
        env.info ((l.get ⟨j, hjl⟩).name)) }) (by rw [next_vms, hv]) (by rw [next_mode, hm])
        hj hjl (by rw [List.get?_eq_get hjl]; rfl)
    rw [hnext]
    omega

/-- Claim C6 (amended): a cursor move (down/up) recomputes the cached
"IPs + summary" text exactly when the newly selected name differs from
the name cached before the operation (parts 1-2, assuming the cache
invariant); but an inventory refresh — timer tick or show-inactive
toggle — always recomputes whenever a VM is selected afterwards, i.e.
whenever the new list is non-empty, because `refresh_vms` clears the
cache before recomputing it, even when the selected name is unchanged
(parts 3-4) — contrary to the original claim, which asserted the
name-difference criterion for refreshes and ticks as well. The
recomputation count for N consecutive down presses over N records
without name repeats equals N for N at least 2 (part 5); for N = 1 the
single wrap-around press leaves the selected name unchanged and
recomputes nothing, another correction to the original claim. -/
theorem claim_C6 :
    (∀ (env : Env) (a : AppM), cacheInv a →
      (stepCount env (.key .down) a).2 =
        if (stepCount env (.key .down) a).1.selected_vm.map Vm.name
            = a.info_cache.map Prod.fst then 0 else 1) ∧
    (∀ (env : Env) (a : AppM), cacheInv a →
      (stepCount env (.key .up) a).2 =
        if (stepCount env (.key .up) a).1.selected_vm.map Vm.name
            = a.info_cache.map Prod.fst then 0 else 1) ∧
    (∀ (env : Env) (a : AppM),
      (stepCount env .tick a).2 = if env.list a.show_all = [] then 0 else 1) ∧
    (∀ (env : Env) (a : AppM), a.mode = .normal →
      (stepCount env (.key (.char 'A')) a).2 = if env.list (!a.show_all) = [] then 0 else 1) ∧
    (∀ (env : Env) (a : AppM) (N : Nat), a.vms.length = N → 2 ≤ N →
      (a.vms.map Vm.name).Nodup → a.mode = .normal → a.selected = some 0 →
      a.info_cache.map Prod.fst = (a.vms.get? 0).map Vm.name →
      (downsRec env N a).2 = N) := by
  refine ⟨down_count, up_count, tick_count, toggle_count, ?_⟩
  intro env a N hN h2 hn hm hs hc
  subst hN
  exact downs_count env a.vms hn h2 a.vms.length 0 a rfl hm hs (by omega) hc

theorem claim_C6_witness : (downsRec envW 2 aW6).2 = 2 :=
  claim_C6.2.2.2.2 envW aW6 2 (by decide) (by decide) (by decide) rfl rfl (by decide)

/-- Counterexample to C6 as stated: on a one-record inventory with the
record already selected and cached, a timer tick performs one
recomputation (count 1) although the newly selected name "a" equals the
name cached before the operation, so recomputation is not equivalent to
the selected name changing. -/
theorem claim_C6_counterexample :
    (stepCount envC6 .tick aC6).2 = 1 ∧
    (stepCount envC6 .tick aC6).1.selected_vm.map Vm.name = some "a" ∧
    aC6.info_cache.map Prod.fst = some "a" :=
  ⟨by decide, by decide, by decide⟩

theorem claim_C7_witness : cacheInv (step envW (Op.key Key.down) aW6) :=
  claim_C7.2 envW (Op.key Key.down) aW6 rfl

theorem claim_C10_witness : inputInv (step envW (Op.key (Key.char 'x')) aW6) :=
  claim_C10.2 envW (Op.key (Key.char 'x')) aW6 (fun _ => rfl)

/-- Claim C8: cursor navigation is circular over the current record
sequence: on an empty sequence both moves are no-ops leaving the
selection none; on a non-empty sequence of length n, "down" from index
n-1 yields index 0 and otherwise moves one down, and "up" from index 0
yields index n-1 and otherwise moves one up. -/
theorem claim_C8 (a : AppM) :
    (a.vms = [] →
      AppM.next a = a ∧ AppM.previous a = a ∧
      (a.selected = none →
        (AppM.next a).selected = none ∧ (AppM.previous a).selected = none)) ∧
    (a.vms ≠ [] →
      (a.selected = some (a.vms.length - 1) → (AppM.next a).selected = some 0) ∧
      (∀ i, a.selected = some i → i < a.vms.length - 1 →
        (AppM.next a).selected = some (i + 1)) ∧
      (a.selected = some 0 → (AppM.previous a).selected = some (a.vms.length - 1)) ∧
      (∀ i, a.selected = some i → 0 < i → (AppM.previous a).selected = some (i - 1))) := by
  constructor
  · intro he
    have hv : a.vms.isEmpty = true := by rw [he]; rfl
    have h1 : AppM.next a = a := by unfold AppM.next; rw [if_pos hv]
    have h2 : AppM.previous a = a := by unfold AppM.previous; rw [if_pos hv]
    exact ⟨h1, h2, fun hs => ⟨by rw [h1]; exact hs, by rw [h2]; exact hs⟩⟩
  · intro hne
    have hv : ¬a.vms.isEmpty = true := by
      intro hc
      cases hl : a.vms with
      | nil => exact hne hl
      | cons x t => rw [hl] at hc; simp at hc
    refine ⟨?_, ?_, ?_, ?_⟩
    · intro hs
      unfold AppM.next
      rw [if_neg hv, hs]
      simp
    · intro i hs hlt
      unfold AppM.next
      rw [if_neg hv, hs]
      have hni : ¬(a.vms.length - 1 ≤ i) := by omega
      simp [hni]
    · intro hs
      unfold AppM.previous
      rw [if_neg hv, hs]
    · intro i hs hpos
      obtain ⟨i2, rfl⟩ : ∃ i2, i = i2 + 1 := ⟨i - 1, by omega⟩
      unfold AppM.previous
      rw [if_neg hv, hs]
      simp

theorem claim_C8_witness : (AppM.next aW8).selected = some 0 :=
  ((claim_C8 aW8).2 (by decide)).1 (by decide)

end Yalv
